import Mathlib

/-!
Verification of the starbound-web pathfinding core.

This file gives a shallow embedding of the repository's grid, A* search,
path smoothing, pixel-path refinement and the unit motion-state setters,
and proves or refutes the specified properties about them.

Conventions of the embedding:
* JS numbers are modelled exactly: tile coordinates are `ℤ`, world (pixel)
  coordinates and costs are `ℚ`.  Decimal literals of the source
  (`1.414`, `0.3`) are modelled as the exact rationals they denote.
* `Math.sqrt` never needs to be evaluated: every place the source compares
  or ceils a square root is embedded as an exact algebraic test on the
  radicand (`qAddSqrtLt`, `ltSqrtB`, `sqrtLeB`, `ratCeilSqrt`).
* Mutable JS objects become immutable values; in-place array mutation
  becomes list rebuilding at the same index.
-/

set_option autoImplicit false

attribute [local semireducible] Rat.add Rat.mul Rat.inv Rat.sub Rat.ofScientific

namespace StarboundWeb

/-- Tile coordinate (integer column/row pair), the `{x, y}` grid objects of the source. -/
abbrev Coord := ℤ × ℤ

/-- World position in pixels, the `{x, y}` world objects of the source. -/
abbrev Pt := ℚ × ℚ

/-- Embedding of `Grid` (Grid.js).  `cols`/`rows` are the precomputed
`Math.floor(width / tileSize)` values (kept abstract, so degenerate grids with
zero or negative `cols`/`rows` are representable).  `tiles y x` is the cell
value `this.tiles[y][x]`; it is a total function, but every embedded query
guards it with the same bounds check the source uses, so out-of-range cells
are never consulted. -/
structure Grid where
  cols : ℤ
  rows : ℤ
  tileSize : ℚ
  tiles : ℤ → ℤ → ℤ

/-- Embedding of `Grid.isValidTile` (Grid.js line 49). -/
def Grid.isValidTile (g : Grid) (x y : ℤ) : Bool :=
  decide (0 ≤ x) && decide (x < g.cols) && decide (0 ≤ y) && decide (y < g.rows)

/-- Embedding of `Grid.isWalkable` (Grid.js line 56): in bounds and cell value `0`. -/
def Grid.isWalkable (g : Grid) (x y : ℤ) : Bool :=
  g.isValidTile x y && decide (g.tiles y x = 0)

/-- Embedding of `Grid.worldToGrid` (Grid.js line 29): coordinatewise
`Math.floor(world / tileSize)`. -/
def Grid.worldToGrid (g : Grid) (wx wy : ℚ) : Coord :=
  (⌊wx / g.tileSize⌋, ⌊wy / g.tileSize⌋)

/-- Embedding of `Grid.gridToWorld` (Grid.js line 39): centre of the tile. -/
def Grid.gridToWorld (g : Grid) (gx gy : ℤ) : Pt :=
  ((gx : ℚ) * g.tileSize + g.tileSize / 2, (gy : ℚ) * g.tileSize + g.tileSize / 2)

/-- Embedding of `Grid.getNeighbors` (Grid.js line 81): the four cardinal
directions, plus the four diagonals when `diagonal` is set; a diagonal
neighbour additionally requires both adjacent orthogonal tiles to be
walkable. -/
def Grid.getNeighbors (g : Grid) (x y : ℤ) (diagonal : Bool) : List Coord :=
  let cardinal : List Coord := [(0, -1), (1, 0), (0, 1), (-1, 0)]
  let directions : List Coord :=
    if diagonal then cardinal ++ [(1, -1), (1, 1), (-1, 1), (-1, -1)] else cardinal
  directions.foldl (fun acc d =>
    let nx := x + d.1
    let ny := y + d.2
    if g.isWalkable nx ny then
      if diagonal ∧ d.1 ≠ 0 ∧ d.2 ≠ 0 then
        if g.isWalkable (x + d.1) y ∧ g.isWalkable x (y + d.2) then acc ++ [(nx, ny)]
        else acc
      else acc ++ [(nx, ny)]
    else acc) []

/-- C9: every tile coordinate outside `[0,cols) × [0,rows)` — including on a
grid with zero columns or rows — is reported unwalkable; the bounds check
fires before any cell array access, so the query is total. -/
theorem isWalkable_out_of_bounds (g : Grid) (x y : ℤ)
    (h : ¬ (0 ≤ x ∧ x < g.cols ∧ 0 ≤ y ∧ y < g.rows)) :
    g.isWalkable x y = false := by
  unfold Grid.isWalkable Grid.isValidTile
  by_cases h1 : 0 ≤ x <;> by_cases h2 : x < g.cols <;> by_cases h3 : 0 ≤ y <;>
    by_cases h4 : y < g.rows <;> simp_all

/-- Witness for C9 on a concrete degenerate grid with zero columns and rows. -/
theorem isWalkable_out_of_bounds_witness :
    ¬ (0 ≤ (0 : ℤ) ∧ (0 : ℤ) < (0 : ℤ) ∧ 0 ≤ (0 : ℤ) ∧ (0 : ℤ) < (0 : ℤ)) ∧
      (Grid.mk 0 0 50 (fun _ _ => 0)).isWalkable 0 0 = false :=
  ⟨by decide, isWalkable_out_of_bounds (Grid.mk 0 0 50 (fun _ _ => 0)) 0 0 (by decide)⟩

/-- Decides `a + √m < b + √n` exactly, for rationals with `0 ≤ m` and
`0 ≤ n`, by the usual two-squarings case analysis: with `c = b - a` the
inequality reads `√m < c + √n`, which requires `c + √n > 0` and then
squares to `m - c² - n < 2·c·√n`, itself squared with attention to signs
(`qAddSqrtLt_iff` below proves the equivalence).  This embeds the source's
comparison of `f`-costs `g + h` in which `h` may be the square root `√hr` of
the Euclidean heuristic's radicand. -/
def qAddSqrtLt (a m b n : ℚ) : Bool :=
  let c := b - a
  let A := m - c ^ 2 - n
  if 0 ≤ c then
    if 0 < c ∨ 0 < n then decide (A < 0 ∨ A ^ 2 < 4 * c ^ 2 * n) else false
  else
    if c ^ 2 < n then decide (A < 0 ∧ A ^ 2 > 4 * c ^ 2 * n) else false

/-- A strict bound by a nonnegative multiple of a square root, reduced to
squares. -/
theorem lt_mul_sqrt_iff_of_nonneg (A B s : ℝ) (hB : 0 ≤ B) (hs : 0 ≤ s) :
    A < B * Real.sqrt s ↔ A < 0 ∨ A ^ 2 < B ^ 2 * s := by
  have hsq : Real.sqrt s ^ 2 = s := Real.sq_sqrt hs
  have hrs : 0 ≤ Real.sqrt s := Real.sqrt_nonneg s
  have hprod : 0 ≤ B * Real.sqrt s := mul_nonneg hB hrs
  constructor
  · intro h
    by_cases hA : A < 0
    · exact Or.inl hA
    · push_neg at hA
      refine Or.inr ?_
      have h2 := mul_self_lt_mul_self hA h
      calc A ^ 2 = A * A := sq A
        _ < (B * Real.sqrt s) * (B * Real.sqrt s) := h2
        _ = B ^ 2 * Real.sqrt s ^ 2 := by ring
        _ = B ^ 2 * s := by rw [hsq]
  · rintro (h | h)
    · exact lt_of_lt_of_le h hprod
    · by_contra hcon
      push_neg at hcon
      have h2 := mul_self_le_mul_self hprod hcon
      have h3 : B ^ 2 * s ≤ A ^ 2 := by
        calc B ^ 2 * s = B ^ 2 * Real.sqrt s ^ 2 := by rw [hsq]
          _ = (B * Real.sqrt s) * (B * Real.sqrt s) := by ring
          _ ≤ A * A := h2
          _ = A ^ 2 := (sq A).symm
      linarith

/-- A strict bound by a negative multiple of a square root, reduced to
squares. -/
theorem lt_mul_sqrt_iff_of_neg (A B s : ℝ) (hB : B < 0) (hs : 0 ≤ s) :
    A < B * Real.sqrt s ↔ A < 0 ∧ B ^ 2 * s < A ^ 2 := by
  have hsq : Real.sqrt s ^ 2 = s := Real.sq_sqrt hs
  have hrs : 0 ≤ Real.sqrt s := Real.sqrt_nonneg s
  have hprod : B * Real.sqrt s ≤ 0 := mul_nonpos_of_nonpos_of_nonneg (le_of_lt hB) hrs
  constructor
  · intro h
    have hA : A < 0 := lt_of_lt_of_le h hprod
    refine ⟨hA, ?_⟩
    have h1 : 0 ≤ -(B * Real.sqrt s) := by linarith
    have h2 : -(B * Real.sqrt s) < -A := by linarith
    have h3 := mul_self_lt_mul_self h1 h2
    calc B ^ 2 * s = B ^ 2 * Real.sqrt s ^ 2 := by rw [hsq]
      _ = -(B * Real.sqrt s) * -(B * Real.sqrt s) := by ring
      _ < -A * -A := h3
      _ = A ^ 2 := by ring
  · rintro ⟨hA, h⟩
    by_contra hcon
    push_neg at hcon
    have h1 : 0 ≤ -A := by linarith
    have h2 : -A ≤ -(B * Real.sqrt s) := by linarith
    have h3 := mul_self_le_mul_self h1 h2
    have h4 : A ^ 2 ≤ B ^ 2 * s := by
      calc A ^ 2 = -A * -A := by ring
        _ ≤ -(B * Real.sqrt s) * -(B * Real.sqrt s) := h3
        _ = B ^ 2 * Real.sqrt s ^ 2 := by ring
        _ = B ^ 2 * s := by rw [hsq]
    linarith

/-- Correctness of the exact square-root comparison: `qAddSqrtLt a m b n`
decides precisely the real inequality `a + √m < b + √n`. -/
theorem qAddSqrtLt_iff (a m b n : ℚ) (_hm : (0 : ℚ) ≤ m) (hn : (0 : ℚ) ≤ n) :
    qAddSqrtLt a m b n = true ↔
      (a : ℝ) + Real.sqrt (m : ℝ) < (b : ℝ) + Real.sqrt (n : ℝ) := by
  have hnr : (0 : ℝ) ≤ (n : ℝ) := by exact_mod_cast hn
  have hsm : (0 : ℝ) ≤ Real.sqrt (m : ℝ) := Real.sqrt_nonneg _
  have hsn : (0 : ℝ) ≤ Real.sqrt (n : ℝ) := Real.sqrt_nonneg _
  have hsn2 : Real.sqrt (n : ℝ) ^ 2 = (n : ℝ) := Real.sq_sqrt hnr
  have hmain : ((a : ℝ) + Real.sqrt (m : ℝ) < (b : ℝ) + Real.sqrt (n : ℝ)) ↔
      Real.sqrt (m : ℝ) < ((b : ℝ) - (a : ℝ)) + Real.sqrt (n : ℝ) := by
    constructor <;> intro h <;> linarith
  rw [hmain]
  unfold qAddSqrtLt
  by_cases hc : (0 : ℚ) ≤ b - a
  · rw [if_pos hc]
    have hcr : (0 : ℝ) ≤ (b : ℝ) - (a : ℝ) := by
      have h2 : ((b - a : ℚ) : ℝ) = (b : ℝ) - (a : ℝ) := by push_cast; ring
      rw [← h2]
      exact_mod_cast hc
    by_cases hcpos : (0 : ℚ) < b - a ∨ (0 : ℚ) < n
    · rw [if_pos hcpos, decide_eq_true_eq]
      have hpos : (0 : ℝ) < ((b : ℝ) - (a : ℝ)) + Real.sqrt (n : ℝ) := by
        rcases hcpos with h | h
        · have h2 : (0 : ℝ) < (b : ℝ) - (a : ℝ) := by
            have h3 : ((b - a : ℚ) : ℝ) = (b : ℝ) - (a : ℝ) := by push_cast; ring
            rw [← h3]
            exact_mod_cast h
          linarith
        · have h2 : (0 : ℝ) < Real.sqrt (n : ℝ) :=
            Real.sqrt_pos.mpr (by exact_mod_cast h)
          linarith
      rw [Real.sqrt_lt' hpos]
      have hexp : (((b : ℝ) - (a : ℝ)) + Real.sqrt (n : ℝ)) ^ 2 =
          ((b : ℝ) - (a : ℝ)) ^ 2 + 2 * ((b : ℝ) - (a : ℝ)) * Real.sqrt (n : ℝ) +
            (n : ℝ) := by
        rw [add_sq, hsn2]
      have hstep : ((m : ℝ) < (((b : ℝ) - (a : ℝ)) + Real.sqrt (n : ℝ)) ^ 2) ↔
          ((m : ℝ) - ((b : ℝ) - (a : ℝ)) ^ 2 - (n : ℝ) <
            (2 * ((b : ℝ) - (a : ℝ))) * Real.sqrt (n : ℝ)) := by
        rw [hexp]
        constructor <;> intro h <;> linarith
      rw [hstep, lt_mul_sqrt_iff_of_nonneg _ _ _ (by linarith) hnr]
      have e1 : ((m - (b - a) ^ 2 - n : ℚ) : ℝ) =
          (m : ℝ) - ((b : ℝ) - (a : ℝ)) ^ 2 - (n : ℝ) := by push_cast; ring
      have e2 : ((4 * (b - a) ^ 2 * n : ℚ) : ℝ) =
          (2 * ((b : ℝ) - (a : ℝ))) ^ 2 * (n : ℝ) := by push_cast; ring
      constructor
      · rintro (h | h)
        · exact Or.inl (by rw [← e1]; exact_mod_cast h)
        · refine Or.inr ?_
          have h2 : (((m - (b - a) ^ 2 - n) ^ 2 : ℚ) : ℝ) <
              ((4 * (b - a) ^ 2 * n : ℚ) : ℝ) := by exact_mod_cast h
          rw [e2] at h2
          calc ((m : ℝ) - ((b : ℝ) - (a : ℝ)) ^ 2 - (n : ℝ)) ^ 2
              = (((m - (b - a) ^ 2 - n) ^ 2 : ℚ) : ℝ) := by push_cast; ring
            _ < (2 * ((b : ℝ) - (a : ℝ))) ^ 2 * (n : ℝ) := h2
      · rintro (h | h)
        · refine Or.inl ?_
          rw [← e1] at h
          exact_mod_cast h
        · refine Or.inr ?_
          have h2 : (((m - (b - a) ^ 2 - n) ^ 2 : ℚ) : ℝ) <
              ((4 * (b - a) ^ 2 * n : ℚ) : ℝ) := by
            rw [e2]
            calc (((m - (b - a) ^ 2 - n) ^ 2 : ℚ) : ℝ)
                = ((m : ℝ) - ((b : ℝ) - (a : ℝ)) ^ 2 - (n : ℝ)) ^ 2 := by push_cast; ring
              _ < (2 * ((b : ℝ) - (a : ℝ))) ^ 2 * (n : ℝ) := h
          exact_mod_cast h2
    · rw [if_neg hcpos]
      push_neg at hcpos
      have hc0 : b - a = 0 := le_antisymm hcpos.1 hc
      have hn0 : n = 0 := le_antisymm hcpos.2 hn
      constructor
      · intro h
        simp at h
      · intro h
        exfalso
        have h2 : (b : ℝ) - (a : ℝ) = 0 := by
          have h3 : ((b - a : ℚ) : ℝ) = 0 := by rw [hc0]; simp
          push_cast at h3
          linarith
        rw [h2, hn0] at h
        simp only [Rat.cast_zero, Real.sqrt_zero, zero_add] at h
        linarith
  · rw [if_neg hc]
    push_neg at hc
    have hcr : (b : ℝ) - (a : ℝ) < 0 := by
      have h2 : ((b - a : ℚ) : ℝ) < 0 := by exact_mod_cast hc
      push_cast at h2
      linarith
    by_cases hq : (b - a) ^ 2 < n
    · rw [if_pos hq, decide_eq_true_eq]
      have hlt : -((b : ℝ) - (a : ℝ)) < Real.sqrt (n : ℝ) := by
        rw [Real.lt_sqrt (by linarith)]
        have h2 : (-((b : ℝ) - (a : ℝ))) ^ 2 = (((b - a) ^ 2 : ℚ) : ℝ) := by
          push_cast
          ring
        rw [h2]
        exact_mod_cast hq
      have hpos : (0 : ℝ) < ((b : ℝ) - (a : ℝ)) + Real.sqrt (n : ℝ) := by linarith
      rw [Real.sqrt_lt' hpos]
      have hexp : (((b : ℝ) - (a : ℝ)) + Real.sqrt (n : ℝ)) ^ 2 =
          ((b : ℝ) - (a : ℝ)) ^ 2 + 2 * ((b : ℝ) - (a : ℝ)) * Real.sqrt (n : ℝ) +
            (n : ℝ) := by
        rw [add_sq, hsn2]
      have hstep : ((m : ℝ) < (((b : ℝ) - (a : ℝ)) + Real.sqrt (n : ℝ)) ^ 2) ↔
          ((m : ℝ) - ((b : ℝ) - (a : ℝ)) ^ 2 - (n : ℝ) <
            (2 * ((b : ℝ) - (a : ℝ))) * Real.sqrt (n : ℝ)) := by
        rw [hexp]
        constructor <;> intro h <;> linarith
      rw [hstep, lt_mul_sqrt_iff_of_neg _ _ _ (by linarith) hnr]
      have e1 : ((m - (b - a) ^ 2 - n : ℚ) : ℝ) =
          (m : ℝ) - ((b : ℝ) - (a : ℝ)) ^ 2 - (n : ℝ) := by push_cast; ring
      have e2 : ((4 * (b - a) ^ 2 * n : ℚ) : ℝ) =
          (2 * ((b : ℝ) - (a : ℝ))) ^ 2 * (n : ℝ) := by push_cast; ring
      constructor
      · rintro ⟨h1, h2⟩
        refine ⟨by rw [← e1]; exact_mod_cast h1, ?_⟩
        have h3 : ((4 * (b - a) ^ 2 * n : ℚ) : ℝ) <
            (((m - (b - a) ^ 2 - n) ^ 2 : ℚ) : ℝ) := by exact_mod_cast h2
        rw [e2] at h3
        calc (2 * ((b : ℝ) - (a : ℝ))) ^ 2 * (n : ℝ)
            < (((m - (b - a) ^ 2 - n) ^ 2 : ℚ) : ℝ) := h3
          _ = ((m : ℝ) - ((b : ℝ) - (a : ℝ)) ^ 2 - (n : ℝ)) ^ 2 := by push_cast; ring
      · rintro ⟨h1, h2⟩
        refine ⟨?_, ?_⟩
        · rw [← e1] at h1
          exact_mod_cast h1
        · have h3 : ((4 * (b - a) ^ 2 * n : ℚ) : ℝ) <
              (((m - (b - a) ^ 2 - n) ^ 2 : ℚ) : ℝ) := by
            rw [e2]
            calc (2 * ((b : ℝ) - (a : ℝ))) ^ 2 * (n : ℝ)
                < ((m : ℝ) - ((b : ℝ) - (a : ℝ)) ^ 2 - (n : ℝ)) ^ 2 := h2
              _ = (((m - (b - a) ^ 2 - n) ^ 2 : ℚ) : ℝ) := by push_cast; ring
          exact_mod_cast h3
    · rw [if_neg hq]
      push_neg at hq
      have hler : Real.sqrt (n : ℝ) ≤ -((b : ℝ) - (a : ℝ)) := by
        have h2 : (n : ℝ) ≤ (((b - a) ^ 2 : ℚ) : ℝ) := by exact_mod_cast hq
        have h3 : Real.sqrt (n : ℝ) ≤ Real.sqrt ((((b - a) ^ 2 : ℚ) : ℝ)) :=
          Real.sqrt_le_sqrt h2
        have h4 : Real.sqrt ((((b - a) ^ 2 : ℚ) : ℝ)) = -((b : ℝ) - (a : ℝ)) := by
          rw [show (((b - a) ^ 2 : ℚ) : ℝ) = (-((b : ℝ) - (a : ℝ))) ^ 2 by push_cast; ring]
          rw [Real.sqrt_sq (by linarith)]
        rw [h4] at h3
        exact h3
      constructor
      · intro h
        simp at h
      · intro h
        exfalso
        have h2 : ((b : ℝ) - (a : ℝ)) + Real.sqrt (n : ℝ) ≤ 0 := by linarith
        linarith
/-- Embedding of `heuristic` (Pathfinding.js line 24): Manhattan distance. -/
def heuristic (x1 y1 x2 y2 : ℤ) : ℚ := ((|x1 - x2| + |y1 - y2| : ℤ) : ℚ)

/-- Radicand of `heuristicDiagonal` (Pathfinding.js line 31): the source
computes `Math.sqrt` of this value; the embedding carries the radicand and
compares costs exactly through `qAddSqrtLt`. -/
def heuristicDiagonalSq (x1 y1 x2 y2 : ℤ) : ℚ := (((x1 - x2) ^ 2 + (y1 - y2) ^ 2 : ℤ) : ℚ)

/-- Embedding of the `PathNode` objects (Pathfinding.js line 6).  A node
stores its tile coordinate, the cost `g` from the start, and its heuristic
split as `hq + √hr` (Manhattan mode uses `hq`, diagonal mode uses `hr`); the
stored `f = g + h` of the source is recomputed on demand since the source
keeps it equal to `g + h` at every update.  The nullable `parent` pointer
becomes two constructors. -/
inductive PathNode where
  | root (x y : ℤ) (g hq hr : ℚ)
  | child (x y : ℤ) (g hq hr : ℚ) (parent : PathNode)
deriving DecidableEq

/-- Column of a node. -/
def PathNode.x : PathNode → ℤ
  | .root x _ _ _ _ => x
  | .child x _ _ _ _ _ => x

/-- Row of a node. -/
def PathNode.y : PathNode → ℤ
  | .root _ y _ _ _ => y
  | .child _ y _ _ _ _ => y

/-- Cost from the start to a node. -/
def PathNode.g : PathNode → ℚ
  | .root _ _ g _ _ => g
  | .child _ _ g _ _ _ => g

/-- Rational part of a node's heuristic. -/
def PathNode.hq : PathNode → ℚ
  | .root _ _ _ hq _ => hq
  | .child _ _ _ hq _ _ => hq

/-- Radicand part of a node's heuristic. -/
def PathNode.hr : PathNode → ℚ
  | .root _ _ _ _ hr => hr
  | .child _ _ _ _ hr _ => hr

/-- Strictly decreasing `g` along the parent chain: the value-level witness
that parent links form a tree (each link points to a node of strictly
smaller path cost, so no chain can revisit a node). -/
def chainGB : PathNode → Bool
  | .root _ _ _ _ _ => true
  | .child _ _ g _ _ parent => decide (parent.g < g) && chainGB parent

/-- The source's strict comparison `openList[i].f < openList[currentIndex].f`
with `f = g + hq + √hr`, decided exactly. -/
def fLt (a b : PathNode) : Bool :=
  qAddSqrtLt (a.g + a.hq) a.hr (b.g + b.hq) b.hr

/-- Embedding of the minimum-`f` scan (Pathfinding.js line 77): first index
of the minimal element under the strict comparison, scanning left to right.
`bi` is the best index so far and `i` the index of the head of the remaining
list. -/
def minFIdx : List PathNode → PathNode → ℕ → ℕ → ℕ
  | [], _, bi, _ => bi
  | n :: rest, best, bi, i =>
    if fLt n best then minFIdx rest n i (i + 1) else minFIdx rest best bi (i + 1)

/-- Embedding of `reconstructPath` (Pathfinding.js line 136): walk the parent
chain, ancestors first. -/
def reconstructPath : PathNode → List Coord
  | .root x y _ _ _ => [(x, y)]
  | .child x y _ _ _ parent => reconstructPath parent ++ [(x, y)]

/-- Embedding of the find-then-update-or-push block of the neighbour loop
(Pathfinding.js lines 113-125): locate the first open node at `(nx, ny)`; if
none, push a fresh node at the end; if found and the tentative `gN` improves
on its `g`, overwrite its `g` and parent in place (its stored heuristic is
kept, exactly as the source keeps `neighborNode.h`). -/
def upsertNeighbor (nx ny : ℤ) (gN hq hr : ℚ) (current : PathNode) :
    List PathNode → List PathNode
  | [] => [PathNode.child nx ny gN hq hr current]
  | n :: rest =>
    if n.x = nx ∧ n.y = ny then
      (if gN < n.g then PathNode.child nx ny gN n.hq n.hr current else n) :: rest
    else n :: upsertNeighbor nx ny gN hq hr current rest

/-- Embedding of one round of the neighbour loop (Pathfinding.js lines
98-126): skip coordinates already closed, compute the move cost (`1.414`
for a diagonal step, `1` otherwise), the tentative `g` and the heuristic,
then update or push the open node. -/
def expandNeighbor (diag : Bool) (goalx goaly : ℤ) (closed : List Coord)
    (current : PathNode) (openList : List PathNode) (npos : Coord) : List PathNode :=
  if npos ∈ closed then openList
  else
    let isDiag : Bool :=
      decide ((npos.1 - current.x).natAbs = 1) && decide ((npos.2 - current.y).natAbs = 1)
    let moveCost : ℚ := if isDiag then 1414 / 1000 else 1
    let gN := current.g + moveCost
    let hq := if diag then 0 else heuristic npos.1 npos.2 goalx goaly
    let hr := if diag then heuristicDiagonalSq npos.1 npos.2 goalx goaly else 0
    upsertNeighbor npos.1 npos.2 gN hq hr current openList

/-- Outcome of a search: the reconstructed path (if the goal was selected),
the goal node it was reconstructed from, the closed list in reverse
insertion order, and the number of iterations of the main loop. -/
structure SearchResult where
  result : Option (List Coord)
  goalNode : Option PathNode
  closed : List Coord
  iterations : ℕ

/-- Embedding of the main loop of `findPath` (Pathfinding.js lines 73-127).
The source counts iterations and stops when `iterations` reaches
`maxIterations`; the remaining allowance `maxIterations - iterations` is the
structural fuel, so fuel `0` is exactly the exhausted cap.  Each round
selects the first open node of minimal `f`; if it is the goal the path is
reconstructed, otherwise the node moves from the open list to the closed
list and its neighbours are expanded. -/
def findPathLoop (g : Grid) (goalx goaly : ℤ) (diag : Bool) :
    ℕ → List PathNode → List Coord → SearchResult
  | 0, _, closed => ⟨none, none, closed, 0⟩
  | fuel + 1, openList, closed =>
    match openList with
    | [] => ⟨none, none, closed, 0⟩
    | first :: rest =>
      let ci := minFIdx rest first 0 1
      let current := (first :: rest).getD ci first
      if current.x = goalx ∧ current.y = goaly then
        ⟨some (reconstructPath current), some current, closed, 1⟩
      else
        let closedNext := (current.x, current.y) :: closed
        let openNext := (g.getNeighbors current.x current.y diag).foldl
          (expandNeighbor diag goalx goaly closedNext current) ((first :: rest).eraseIdx ci)
        let r := findPathLoop g goalx goaly diag fuel openNext closedNext
        ⟨r.result, r.goalNode, r.closed, r.iterations + 1⟩

/-- Embedding of `findPath` (Pathfinding.js line 45) with its full
instrumented outcome: unwalkable endpoints fail immediately, coincident
start and goal return the singleton path, and otherwise the main loop runs
with the source's iteration cap `cols · rows · 2`. -/
def findPathFull (g : Grid) (start goal : Coord) (diag : Bool) : SearchResult :=
  if g.isWalkable start.1 start.2 = false ∨ g.isWalkable goal.1 goal.2 = false then
    ⟨none, none, [], 0⟩
  else if start = goal then ⟨some [start], none, [], 0⟩
  else
    let hq := if diag then 0 else heuristic start.1 start.2 goal.1 goal.2
    let hr := if diag then heuristicDiagonalSq start.1 start.2 goal.1 goal.2 else 0
    findPathLoop g goal.1 goal.2 diag (g.cols * g.rows * 2).toNat
      [PathNode.root start.1 start.2 0 hq hr] []

/-- The path (or `none`) returned by `findPath`. -/
def findPath (g : Grid) (start goal : Coord) (diag : Bool) : Option (List Coord) :=
  (findPathFull g start goal diag).result

/-- The 1×1 grid whose only tile is blocked, used to refute C3. -/
def blockedSingleTileGrid : Grid :=
  { cols := 1, rows := 1, tileSize := 50, tiles := fun _ _ => 1 }

/-- Counterexample to C3: with start = goal on an unwalkable tile,
`findPath` returns `none`, not the singleton path — the walkability check
runs before the start-equals-goal early return. -/
theorem findPath_same_tile_unwalkable_counterexample :
    findPath blockedSingleTileGrid (0, 0) (0, 0) true ≠ some [((0 : ℤ), (0 : ℤ))] := by
  decide

/-- C3 (amended): if `p` is walkable then `findPath g p p d` returns the
singleton path `[p]` for either diagonal setting. -/
theorem findPath_same_start_goal (g : Grid) (p : Coord) (d : Bool)
    (h : g.isWalkable p.1 p.2 = true) : findPath g p p d = some [p] := by
  unfold findPath findPathFull
  simp [h]

/-- Witness for the amended C3 on a concrete walkable 1×1 grid. -/
theorem findPath_same_start_goal_witness :
    (Grid.mk 1 1 50 (fun _ _ => 0)).isWalkable 0 0 = true ∧
      findPath (Grid.mk 1 1 50 (fun _ _ => 0)) (0, 0) (0, 0) true = some [((0 : ℤ), (0 : ℤ))] :=
  ⟨by decide, findPath_same_start_goal (Grid.mk 1 1 50 (fun _ _ => 0)) (0, 0) true (by decide)⟩

/-- Tile coordinate of a search node. -/
def nodeCoords (n : PathNode) : Coord := (n.x, n.y)

/-- The minimum-`f` scan returns an index below `i + l.length` whenever its
best-so-far index does: the selected index is always in range. -/
theorem minFIdx_lt (l : List PathNode) :
    ∀ (best : PathNode) (bi i : ℕ), bi < i → minFIdx l best bi i < i + l.length := by
  induction l with
  | nil =>
    intro best bi i h
    simp only [minFIdx, List.length_nil]
    omega
  | cons n rest ih =>
    intro best bi i h
    unfold minFIdx
    split
    · have h2 := ih n i (i + 1) (Nat.lt_succ_self i)
      simp only [List.length_cons]
      omega
    · have h2 := ih best bi (i + 1) (by omega)
      simp only [List.length_cons]
      omega

/-- An in-range `getD` is a member of the list. -/
theorem getD_mem_of_lt {α : Type} (l : List α) (i : ℕ) (d : α) (h : i < l.length) :
    l.getD i d ∈ l := by
  rw [List.getD_eq_getElem?_getD, List.getElem?_eq_getElem h]
  exact List.getElem_mem h

/-- Mapping commutes with index removal. -/
theorem map_eraseIdx {α β : Type} (f : α → β) :
    ∀ (l : List α) (i : ℕ), (l.eraseIdx i).map f = (l.map f).eraseIdx i := by
  intro l
  induction l with
  | nil => intro i; simp
  | cons a t ih =>
    intro i
    cases i with
    | zero => simp [List.eraseIdx]
    | succ i => simp [List.eraseIdx, ih i]

/-- In a duplicate-free list the element at an index does not survive the
removal of that index. -/
theorem nodup_getElem_not_mem_eraseIdx {α : Type} :
    ∀ (l : List α) (i : ℕ) (h : i < l.length), l.Nodup → l[i] ∉ l.eraseIdx i := by
  intro l
  induction l with
  | nil => intro i h; simp at h
  | cons a t ih =>
    intro i h hnd
    cases i with
    | zero =>
      simp only [List.getElem_cons_zero, List.eraseIdx_cons_zero]
      exact (List.nodup_cons.mp hnd).1
    | succ i =>
      have hlt : i < t.length := by simpa using h
      simp only [List.getElem_cons_succ, List.eraseIdx_cons_succ, List.mem_cons]
      rintro (hc | hc)
      · have hmem : t[i] ∈ t := List.getElem_mem hlt
        rw [hc] at hmem
        exact (List.nodup_cons.mp hnd).1 hmem
      · exact ih i hlt (List.nodup_cons.mp hnd).2 hc

/-- Every element of an update-or-push result is an untouched original, the
freshly pushed node, or an updated original (same coordinate, new `g` and
parent). -/
theorem upsert_mem (nx ny : ℤ) (gN hq hr : ℚ) (cur : PathNode) :
    ∀ (l : List PathNode) (m : PathNode), m ∈ upsertNeighbor nx ny gN hq hr cur l →
      m ∈ l ∨ m = PathNode.child nx ny gN hq hr cur ∨
        ∃ n ∈ l, m = PathNode.child nx ny gN n.hq n.hr cur := by
  intro l
  induction l with
  | nil =>
    intro m hm
    simp only [upsertNeighbor, List.mem_singleton] at hm
    exact Or.inr (Or.inl hm)
  | cons n t ih =>
    intro m hm
    unfold upsertNeighbor at hm
    split at hm
    · rcases List.mem_cons.mp hm with h | h
      · subst h
        split
        · exact Or.inr (Or.inr ⟨n, List.mem_cons_self n t, rfl⟩)
        · exact Or.inl (List.mem_cons_self n t)
      · exact Or.inl (List.mem_cons_of_mem n h)
    · rcases List.mem_cons.mp hm with h | h
      · exact Or.inl (h ▸ List.mem_cons_self n t)
      · rcases ih m h with h2 | h2 | ⟨n2, hn2, h2⟩
        · exact Or.inl (List.mem_cons_of_mem n h2)
        · exact Or.inr (Or.inl h2)
        · exact Or.inr (Or.inr ⟨n2, List.mem_cons_of_mem n hn2, h2⟩)

/-- The coordinates of an update-or-push result: unchanged when the
coordinate was already present, extended by it at the end otherwise. -/
theorem upsert_map_coords (nx ny : ℤ) (gN hq hr : ℚ) (cur : PathNode) :
    ∀ l : List PathNode,
      (upsertNeighbor nx ny gN hq hr cur l).map nodeCoords =
        if (nx, ny) ∈ l.map nodeCoords then l.map nodeCoords
        else l.map nodeCoords ++ [(nx, ny)] := by
  intro l
  induction l with
  | nil => simp [upsertNeighbor, nodeCoords, PathNode.x, PathNode.y]
  | cons n t ih =>
    unfold upsertNeighbor
    by_cases hc : n.x = nx ∧ n.y = ny
    · have hcc : nodeCoords n = (nx, ny) := by
        unfold nodeCoords
        rw [hc.1, hc.2]
      have hmem : (nx, ny) ∈ (n :: t).map nodeCoords := by
        simp only [List.map_cons, List.mem_cons]
        exact Or.inl hcc.symm
      rw [if_pos hc, if_pos hmem]
      split
      · simp only [List.map_cons]
        rw [show nodeCoords (PathNode.child nx ny gN n.hq n.hr cur) = (nx, ny) from rfl, hcc]
      · simp only [List.map_cons]
    · have hcc : nodeCoords n ≠ (nx, ny) := by
        unfold nodeCoords
        intro hcon
        exact hc ⟨congrArg Prod.fst hcon, congrArg Prod.snd hcon⟩
      rw [if_neg hc]
      by_cases hmem : (nx, ny) ∈ t.map nodeCoords
      · have hmem2 : (nx, ny) ∈ (n :: t).map nodeCoords := by
          simp only [List.map_cons, List.mem_cons]
          exact Or.inr hmem
        rw [if_pos hmem2]
        simp only [List.map_cons, ih, if_pos hmem]
      · have hmem2 : ¬ (nx, ny) ∈ (n :: t).map nodeCoords := by
          simp only [List.map_cons, List.mem_cons]
          rintro (hcon | hcon)
          · exact hcc hcon.symm
          · exact hmem hcon
        rw [if_neg hmem2]
        simp only [List.map_cons, ih, if_neg hmem, List.cons_append]

/-- One neighbour expansion preserves the open-list invariants relative to a
closed list containing neither the open coordinates nor (by the source's
explicit check) the expanded neighbour. -/
theorem expandNeighbor_inv (d : Bool) (gx gy : ℤ) (closedN : List Coord)
    (cur : PathNode) (hcur : chainGB cur = true) (openL : List PathNode) (c : Coord)
    (h1 : (openL.map nodeCoords).Nodup)
    (h2 : ∀ m ∈ openL, nodeCoords m ∉ closedN)
    (h3 : ∀ m ∈ openL, chainGB m = true) :
    ((expandNeighbor d gx gy closedN cur openL c).map nodeCoords).Nodup ∧
      (∀ m ∈ expandNeighbor d gx gy closedN cur openL c, nodeCoords m ∉ closedN) ∧
      (∀ m ∈ expandNeighbor d gx gy closedN cur openL c, chainGB m = true) := by
  unfold expandNeighbor
  split
  · exact ⟨h1, h2, h3⟩
  · rename_i hcl
    simp only []
    refine ⟨?_, ?_, ?_⟩
    · rw [upsert_map_coords]
      split
      · exact h1
      · rename_i hnm
        simp only [List.nodup_append, List.nodup_cons, List.nodup_nil]
        refine ⟨h1, by simp, ?_⟩
        intro a ha
        simp only [List.mem_singleton]
        intro hcon
        exact hnm (hcon ▸ ha)
    · intro m hm
      rcases upsert_mem _ _ _ _ _ _ _ m hm with h | h | ⟨n2, _, h⟩
      · exact h2 m h
      · subst h
        show (c.1, c.2) ∉ closedN
        simpa using hcl
      · subst h
        show (c.1, c.2) ∉ closedN
        simpa using hcl
    · intro m hm
      rcases upsert_mem _ _ _ _ _ _ _ m hm with h | h | ⟨n2, _, h⟩
      · exact h3 m h
      · subst h
        simp only [chainGB, Bool.and_eq_true, decide_eq_true_eq]
        refine ⟨lt_add_of_pos_right _ ?_, hcur⟩
        split <;> norm_num
      · subst h
        simp only [chainGB, Bool.and_eq_true, decide_eq_true_eq]
        refine ⟨lt_add_of_pos_right _ ?_, hcur⟩
        split <;> norm_num

/-- Folding the neighbour expansion over any neighbour list preserves the
open-list invariants. -/
theorem foldl_expand_inv (d : Bool) (gx gy : ℤ) (closedN : List Coord)
    (cur : PathNode) (hcur : chainGB cur = true) :
    ∀ (ns : List Coord) (openL : List PathNode),
      (openL.map nodeCoords).Nodup →
      (∀ m ∈ openL, nodeCoords m ∉ closedN) →
      (∀ m ∈ openL, chainGB m = true) →
      ((ns.foldl (expandNeighbor d gx gy closedN cur) openL).map nodeCoords).Nodup ∧
        (∀ m ∈ ns.foldl (expandNeighbor d gx gy closedN cur) openL, nodeCoords m ∉ closedN) ∧
        (∀ m ∈ ns.foldl (expandNeighbor d gx gy closedN cur) openL, chainGB m = true) := by
  intro ns
  induction ns with
  | nil => intro openL h1 h2 h3; exact ⟨h1, h2, h3⟩
  | cons c cs ih =>
    intro openL h1 h2 h3
    simp only [List.foldl_cons]
    have hstep := expandNeighbor_inv d gx gy closedN cur hcur openL c h1 h2 h3
    exact ih _ hstep.1 hstep.2.1 hstep.2.2

/-- Invariant of the main loop: if the open list has duplicate-free
coordinates disjoint from a duplicate-free closed list and every open node
has a strictly-`g`-decreasing parent chain, then the final closed list is
duplicate-free and any selected goal node has a strictly decreasing chain. -/
theorem findPathLoop_inv (g : Grid) (gx gy : ℤ) (d : Bool) :
    ∀ (fuel : ℕ) (openL : List PathNode) (closed : List Coord),
      (openL.map nodeCoords).Nodup →
      (∀ m ∈ openL, nodeCoords m ∉ closed) →
      closed.Nodup →
      (∀ m ∈ openL, chainGB m = true) →
      (findPathLoop g gx gy d fuel openL closed).closed.Nodup ∧
        ∀ n, (findPathLoop g gx gy d fuel openL closed).goalNode = some n →
          chainGB n = true := by
  intro fuel
  induction fuel with
  | zero =>
    intro openL closed _ _ h3 _
    exact ⟨h3, by intro n h; simp [findPathLoop] at h⟩
  | succ fuel ih =>
    intro openL closed h1 h2 h3 h4
    cases openL with
    | nil =>
      refine ⟨by simpa [findPathLoop] using h3, ?_⟩
      intro n h
      simp [findPathLoop] at h
    | cons first rest =>
      unfold findPathLoop
      simp only []
      have hci : minFIdx rest first 0 1 < (first :: rest).length := by
        have h5 := minFIdx_lt rest first 0 1 (by omega)
        simp only [List.length_cons]
        omega
      have hmem : (first :: rest).getD (minFIdx rest first 0 1) first ∈ first :: rest :=
        getD_mem_of_lt _ _ _ hci
      split
      · rename_i hgoal
        refine ⟨h3, ?_⟩
        intro n hn
        simp only [Option.some.injEq] at hn
        exact hn ▸ h4 _ hmem
      · rename_i hgoal
        have hccl : nodeCoords ((first :: rest).getD (minFIdx rest first 0 1) first) ∉ closed :=
          h2 _ hmem
        have hclosed' :
            (((((first :: rest).getD (minFIdx rest first 0 1) first).x,
              ((first :: rest).getD (minFIdx rest first 0 1) first).y)) :: closed).Nodup := by
          rw [List.nodup_cons]
          exact ⟨hccl, h3⟩
        have hsub : List.Sublist ((first :: rest).eraseIdx (minFIdx rest first 0 1))
            (first :: rest) := List.eraseIdx_sublist _ _
        have h1' : (((first :: rest).eraseIdx (minFIdx rest first 0 1)).map nodeCoords).Nodup := by
          rw [map_eraseIdx]
          exact (List.eraseIdx_sublist _ _).nodup h1
        have hgetD : (first :: rest).getD (minFIdx rest first 0 1) first =
            (first :: rest)[minFIdx rest first 0 1] := by
          rw [List.getD_eq_getElem?_getD, List.getElem?_eq_getElem hci]
          rfl
        have hcim : minFIdx rest first 0 1 < ((first :: rest).map nodeCoords).length := by
          simpa using hci
        have hnotin : nodeCoords ((first :: rest).getD (minFIdx rest first 0 1) first) ∉
            ((first :: rest).map nodeCoords).eraseIdx (minFIdx rest first 0 1) := by
          have h5 := nodup_getElem_not_mem_eraseIdx ((first :: rest).map nodeCoords)
            (minFIdx rest first 0 1) hcim h1
          have h6 : ((first :: rest).map nodeCoords)[minFIdx rest first 0 1] =
              nodeCoords ((first :: rest).getD (minFIdx rest first 0 1) first) := by
            rw [hgetD]
            exact List.getElem_map nodeCoords
          rwa [h6] at h5
        have h2' : ∀ m ∈ (first :: rest).eraseIdx (minFIdx rest first 0 1),
            nodeCoords m ∉
              ((((first :: rest).getD (minFIdx rest first 0 1) first).x,
                ((first :: rest).getD (minFIdx rest first 0 1) first).y) :: closed) := by
          intro m hm
          intro hcon
          rcases List.mem_cons.mp hcon with hc | hc
          · have h7 : nodeCoords m ∈
                ((first :: rest).map nodeCoords).eraseIdx (minFIdx rest first 0 1) := by
              rw [← map_eraseIdx]
              exact List.mem_map_of_mem _ hm
            rw [hc] at h7
            exact hnotin h7
          · exact h2 m (hsub.subset hm) hc
        have h4' : ∀ m ∈ (first :: rest).eraseIdx (minFIdx rest first 0 1), chainGB m = true :=
          fun m hm => h4 m (hsub.subset hm)
        have hfold := foldl_expand_inv d gx gy _ _ (h4 _ hmem)
          (g.getNeighbors ((first :: rest).getD (minFIdx rest first 0 1) first).x
            ((first :: rest).getD (minFIdx rest first 0 1) first).y d)
          ((first :: rest).eraseIdx (minFIdx rest first 0 1)) h1' h2' h4'
        have hrec := ih _ _ hfold.1 hfold.2.1 hclosed' hfold.2.2
        exact ⟨hrec.1, fun n hn => hrec.2 n hn⟩

/-- C4: within one invocation of `findPath` no tile coordinate is expanded
twice — the closed list built by the loop is duplicate-free — and the parent
links of the node the path is reconstructed from carry strictly decreasing
`g`-costs, so they form no cycle. -/
theorem findPath_no_reexpansion (g : Grid) (s go : Coord) (d : Bool) :
    (findPathFull g s go d).closed.Nodup ∧
      ∀ n, (findPathFull g s go d).goalNode = some n → chainGB n = true := by
  unfold findPathFull
  split
  · exact ⟨List.nodup_nil, by intro n h; simp at h⟩
  · split
    · exact ⟨List.nodup_nil, by intro n h; simp at h⟩
    · apply findPathLoop_inv
      · simp
      · simp
      · exact List.nodup_nil
      · intro m hm
        simp only [List.mem_singleton] at hm
        subst hm
        rfl

/-- Concrete 2×1 all-walkable grid. -/
def twoTileGrid : Grid := { cols := 2, rows := 1, tileSize := 50, tiles := fun _ _ => 0 }

/-- Witness for C4: a two-iteration run on the 2×1 grid expands each of its
coordinates once, and the goal node it returns has a strictly decreasing
parent chain. -/
theorem findPath_no_reexpansion_witness :
    (findPathFull twoTileGrid (0, 0) (1, 0) false).closed.Nodup ∧
      chainGB (PathNode.child 1 0 1 0 0 (PathNode.root 0 0 0 1 0)) = true :=
  ⟨(findPath_no_reexpansion twoTileGrid (0, 0) (1, 0) false).1,
    (findPath_no_reexpansion twoTileGrid (0, 0) (1, 0) false).2
      (PathNode.child 1 0 1 0 0 (PathNode.root 0 0 0 1 0)) (by decide)⟩

/-- The main loop performs at most `fuel` iterations: the source's guard
`iterations < maxIterations` can never be passed more than `maxIterations`
times. -/
theorem findPathLoop_iterations_le (g : Grid) (goalx goaly : ℤ) (d : Bool) :
    ∀ (fuel : ℕ) (openL : List PathNode) (closed : List Coord),
      (findPathLoop g goalx goaly d fuel openL closed).iterations ≤ fuel := by
  intro fuel
  induction fuel with
  | zero => intro openL closed; simp [findPathLoop]
  | succ fuel ih =>
    intro openL closed
    unfold findPathLoop
    match openL with
    | [] => simp
    | first :: rest =>
      simp only []
      split
      · simp
      · simpa using ih _ _

/-- When the loop ends without ever selecting the goal — by emptying the
open list or by exhausting the iteration cap — its result is `none`. -/
theorem findPathLoop_none_of_no_goal (g : Grid) (goalx goaly : ℤ) (d : Bool) :
    ∀ (fuel : ℕ) (openL : List PathNode) (closed : List Coord),
      (findPathLoop g goalx goaly d fuel openL closed).goalNode = none →
      (findPathLoop g goalx goaly d fuel openL closed).result = none := by
  intro fuel
  induction fuel with
  | zero => intro openL closed _; rfl
  | succ fuel ih =>
    intro openL closed h
    unfold findPathLoop at h ⊢
    match openL with
    | [] => rfl
    | first :: rest =>
      simp only [] at h ⊢
      split
      · rename_i hgoal
        rw [if_pos hgoal] at h
        simp at h
      · rename_i hgoal
        rw [if_neg hgoal] at h
        exact ih _ _ h

/-- C5: `findPath` always terminates within the source's iteration cap —
the main loop runs at most `cols · rows · 2` iterations — and whenever the
loop stops without having selected the goal (open set emptied or cap
exhausted) the outcome is `none` rather than divergence. -/
theorem findPath_terminates_with_cap (g : Grid) (s go : Coord) (d : Bool)
    (fuel : ℕ) (openL : List PathNode) (closed : List Coord)
    (hng : (findPathLoop g go.1 go.2 d fuel openL closed).goalNode = none) :
    (findPathFull g s go d).iterations ≤ (g.cols * g.rows * 2).toNat ∧
      (findPathLoop g go.1 go.2 d fuel openL closed).iterations ≤ fuel ∧
      (findPathLoop g go.1 go.2 d fuel openL closed).result = none := by
  refine ⟨?_, findPathLoop_iterations_le g go.1 go.2 d fuel openL closed,
    findPathLoop_none_of_no_goal g go.1 go.2 d fuel openL closed hng⟩
  unfold findPathFull
  split
  · simp
  · split
    · simp
    · exact findPathLoop_iterations_le g go.1 go.2 d _ _ _

/-- Witness for C5: a loop started with no fuel has no goal node, consumed
no iterations, and yields `none`; `findPath` on the blocked 1×1 grid obeys
the cap. -/
theorem findPath_terminates_with_cap_witness :
    (findPathLoop blockedSingleTileGrid 0 0 true 0 [] []).goalNode = none ∧
      (findPathFull blockedSingleTileGrid (0, 0) (0, 0) true).iterations ≤
        (blockedSingleTileGrid.cols * blockedSingleTileGrid.rows * 2).toNat ∧
      (findPathLoop blockedSingleTileGrid 0 0 true 0 [] []).iterations ≤ 0 ∧
      (findPathLoop blockedSingleTileGrid 0 0 true 0 [] []).result = none :=
  ⟨rfl, findPath_terminates_with_cap blockedSingleTileGrid (0, 0) (0, 0) true 0 [] [] rfl⟩

/-- JavaScript `Math.round`: round half toward positive infinity. -/
def jsRound (q : ℚ) : ℤ := ⌊q + 1 / 2⌋

/-- Embedding of `hasLineOfSight` (Pathfinding.js line 180): sample
`steps = max(|dx|, |dy|)` interior-and-end points of the segment, round each
to the nearest cell and require walkability; coincident endpoints pass. -/
def hasLineOfSight (g : Grid) (a b : Coord) : Bool :=
  let dx := b.1 - a.1
  let dy := b.2 - a.2
  let steps := max dx.natAbs dy.natAbs
  if steps = 0 then true
  else
    (List.range steps).all fun i =>
      let t : ℚ := ((i : ℚ) + 1) / (steps : ℚ)
      g.isWalkable (jsRound ((a.1 : ℚ) + (dx : ℚ) * t)) (jsRound ((a.2 : ℚ) + (dy : ℚ) * t))

/-- Embedding of the inner scan of `smoothPath` (Pathfinding.js line 162):
starting from candidate index `i` with best-so-far `furthest`, advance while
line of sight from `base` holds, stopping at the first failure or at the end
of the path.  The `for` loop performs at most `p.length - i` rounds; the
embedding passes that (or any larger) number as explicit structural fuel, and
`scanFurthest_fuel_stable` below shows any sufficient fuel gives the same
result, so the fuel is semantically invisible. -/
def scanFurthest (g : Grid) (p : List Coord) (base : Coord) :
    ℕ → ℕ → ℕ → ℕ
  | 0, _, furthest => furthest
  | fuel + 1, i, furthest =>
    if i < p.length then
      if hasLineOfSight g base (p.getD i (0, 0)) then scanFurthest g p base fuel (i + 1) i
      else furthest
    else furthest

/-- The scan never returns an index below its best-so-far seed when the seed
is below the candidate index. -/
theorem scanFurthest_ge (g : Grid) (p : List Coord) (base : Coord) :
    ∀ fuel i furthest, furthest < i → furthest ≤ scanFurthest g p base fuel i furthest := by
  intro fuel
  induction fuel with
  | zero => intro i furthest _; exact le_refl _
  | succ fuel ih =>
    intro i furthest hlt
    unfold scanFurthest
    split
    · split
      · have h1 := ih (i + 1) i (by omega)
        omega
      · exact le_refl _
    · exact le_refl _

/-- Any fuel covering the remaining `p.length - i` rounds yields the same
scan result: the explicit fuel does not alter the loop's semantics. -/
theorem scanFurthest_fuel_stable (g : Grid) (p : List Coord) (base : Coord) :
    ∀ fuel₁ fuel₂ i furthest, p.length - i ≤ fuel₁ → p.length - i ≤ fuel₂ →
      scanFurthest g p base fuel₁ i furthest = scanFurthest g p base fuel₂ i furthest := by
  intro fuel₁
  induction fuel₁ with
  | zero =>
    intro fuel₂ i furthest h1 _
    cases fuel₂ with
    | zero => rfl
    | succ fuel₂ =>
      show _ = scanFurthest g p base (fuel₂ + 1) i furthest
      unfold scanFurthest
      rw [if_neg (by omega)]
  | succ fuel₁ ih =>
    intro fuel₂ i furthest h1 h2
    cases fuel₂ with
    | zero =>
      show scanFurthest g p base (fuel₁ + 1) i furthest = _
      unfold scanFurthest
      rw [if_neg (by omega)]
    | succ fuel₂ =>
      show scanFurthest g p base (fuel₁ + 1) i furthest =
        scanFurthest g p base (fuel₂ + 1) i furthest
      unfold scanFurthest
      split
      · split
        · exact ih fuel₂ (i + 1) i (by omega) (by omega)
        · rfl
      · rfl

/-- Embedding of the outer loop of `smoothPath` (Pathfinding.js line 158):
returns the waypoints pushed after the initial one.  The kept index strictly
increases each round, so the `while` loop performs at most `p.length` rounds;
the embedding passes that bound as structural fuel
(`smoothLoop_fuel_stable` shows sufficiency). -/
def smoothLoop (g : Grid) (p : List Coord) : ℕ → ℕ → List Coord
  | 0, _ => []
  | fuel + 1, ci =>
    if ci < p.length - 1 then
      let f := scanFurthest g p (p.getD ci (0, 0)) p.length (ci + 2) (ci + 1)
      p.getD f (0, 0) :: smoothLoop g p fuel f
    else []

/-- Any fuel covering the remaining `p.length - ci` rounds yields the same
smoothing-loop result. -/
theorem smoothLoop_fuel_stable (g : Grid) (p : List Coord) :
    ∀ fuel₁ fuel₂ ci, p.length - ci ≤ fuel₁ → p.length - ci ≤ fuel₂ →
      smoothLoop g p fuel₁ ci = smoothLoop g p fuel₂ ci := by
  intro fuel₁
  induction fuel₁ with
  | zero =>
    intro fuel₂ ci h1 _
    cases fuel₂ with
    | zero => rfl
    | succ fuel₂ =>
      show _ = smoothLoop g p (fuel₂ + 1) ci
      unfold smoothLoop
      rw [if_neg (by omega)]
  | succ fuel₁ ih =>
    intro fuel₂ ci h1 h2
    cases fuel₂ with
    | zero =>
      show smoothLoop g p (fuel₁ + 1) ci = _
      unfold smoothLoop
      rw [if_neg (by omega)]
    | succ fuel₂ =>
      show smoothLoop g p (fuel₁ + 1) ci = smoothLoop g p (fuel₂ + 1) ci
      unfold smoothLoop
      split
      · have hf : ci + 1 ≤ scanFurthest g p (p.getD ci (0, 0)) p.length (ci + 2) (ci + 1) :=
          scanFurthest_ge g p (p.getD ci (0, 0)) p.length (ci + 2) (ci + 1) (by omega)
        have h3 := ih fuel₂ (scanFurthest g p (p.getD ci (0, 0)) p.length (ci + 2) (ci + 1))
          (by omega) (by omega)
        exact congrArg (fun l =>
          p.getD (scanFurthest g p (p.getD ci (0, 0)) p.length (ci + 2) (ci + 1)) (0, 0) :: l) h3
      · rfl

/-- Embedding of `smoothPath` (Pathfinding.js line 152).  A `null` input is
modelled as the empty list (both fall under the `length ≤ 2` early return). -/
def smoothPath (g : Grid) (p : List Coord) : List Coord :=
  if p.length ≤ 2 then p else p.getD 0 (0, 0) :: smoothLoop g p p.length 0

/-- Each round of the smoothing loop strictly advances the kept index, so the
tail it produces has at most `p.length - 1 - ci` waypoints. -/
theorem smoothLoop_length (g : Grid) (p : List Coord) :
    ∀ fuel ci, (smoothLoop g p fuel ci).length ≤ p.length - 1 - ci := by
  intro fuel
  induction fuel with
  | zero => intro ci; simp [smoothLoop]
  | succ fuel ih =>
    intro ci
    unfold smoothLoop
    split
    · have hf : ci + 1 ≤ scanFurthest g p (p.getD ci (0, 0)) p.length (ci + 2) (ci + 1) :=
        scanFurthest_ge g p (p.getD ci (0, 0)) p.length (ci + 2) (ci + 1) (by omega)
      have hrec := ih (scanFurthest g p (p.getD ci (0, 0)) p.length (ci + 2) (ci + 1))
      simp only [List.length_cons]
      omega
    · simp

/-- Smoothing never lengthens a path. -/
theorem smoothPath_length_le (g : Grid) (p : List Coord) :
    (smoothPath g p).length ≤ p.length := by
  unfold smoothPath
  split
  · exact le_refl _
  · have h := smoothLoop_length g p p.length 0
    simp only [List.length_cons]
    omega

/-- The 5×5 grid with the single tile (1,1) blocked, used to refute C2. -/
def gridWithCenterBlock : Grid :=
  { cols := 5, rows := 5, tileSize := 50,
    tiles := fun y x => if y = 1 ∧ x = 1 then 1 else 0 }

/-- Counterexample to C2: smoothing is not idempotent.  On the grid with
(1,1) blocked, the first pass keeps waypoint (0,2) because sight from (0,0)
to (2,2) is blocked, but the second pass can see straight from (0,0) to the
surviving (4,0) and drops (0,2), changing the path again. -/
theorem smoothPath_not_idempotent_counterexample :
    smoothPath gridWithCenterBlock
        (smoothPath gridWithCenterBlock [(0, 0), (0, 2), (2, 2), (4, 0)]) ≠
      smoothPath gridWithCenterBlock [(0, 0), (0, 2), (2, 2), (4, 0)] := by
  decide

/-- C2 (amended): a second application of `smoothPath` may simplify the path
further; what always holds is that every application is waypoint-count
non-increasing, in particular `smooth (smooth P)` is never longer than
`smooth P`. -/
theorem smoothPath_twice_length_le (g : Grid) (p : List Coord) :
    (smoothPath g (smoothPath g p)).length ≤ (smoothPath g p).length :=
  smoothPath_length_le g (smoothPath g p)

/-- Decides `a < √s` exactly (for `0 ≤ s`): true iff `a` is negative or
`a² < s`.  Embeds the source's `>` comparisons against a
`Math.sqrt`-computed distance. -/
def ltSqrtB (a s : ℚ) : Bool := decide (a < 0) || decide (a ^ 2 < s)

/-- Decides `√s ≤ a` exactly (for `0 ≤ s`): true iff `a` is nonnegative and
`s ≤ a²`.  Embeds the source's `<=` comparisons of a `Math.sqrt`-computed
distance against a bound. -/
def sqrtLeB (s a : ℚ) : Bool := decide (0 ≤ a) && decide (s ≤ a ^ 2)

/-- Search for the least `n` starting from `n₀` with `a ≤ n² · b`, with
enough structural fuel to reach it. -/
def ceilSqrtAux (a b : ℕ) : ℕ → ℕ → ℕ
  | 0, n => n
  | fuel + 1, n => if a ≤ n * n * b then n else ceilSqrtAux a b fuel (n + 1)

/-- Exact `⌈√q⌉` for a rational `q` (and `0` for nonpositive `q`): the least
`n` with `q ≤ n²`, found by searching upward from `0` (for `q = a/b` the
bound `n = a` always suffices, so fuel `a + 1` is enough).  Embeds the
source's `Math.ceil` of quantities of the form `√s / c`. -/
def ratCeilSqrt (q : ℚ) : ℕ :=
  if q ≤ 0 then 0 else ceilSqrtAux q.num.toNat q.den (q.num.toNat + 1) 0

/-- The search of `ceilSqrtAux` returns the least `n ≥ n₀` with `a ≤ n²·b`,
provided the fuel reaches one such `n` and nothing below `n₀` qualifies. -/
theorem ceilSqrtAux_spec (a b : ℕ) :
    ∀ fuel n₀, a ≤ (n₀ + fuel) * (n₀ + fuel) * b → (∀ m, m < n₀ → ¬ a ≤ m * m * b) →
      a ≤ ceilSqrtAux a b fuel n₀ * ceilSqrtAux a b fuel n₀ * b ∧
        ∀ m, a ≤ m * m * b → ceilSqrtAux a b fuel n₀ ≤ m := by
  intro fuel
  induction fuel with
  | zero =>
    intro n₀ hreach hleast
    simp only [ceilSqrtAux]
    refine ⟨by simpa using hreach, fun m hm => ?_⟩
    by_contra hcon
    exact hleast m (by omega) hm
  | succ fuel ih =>
    intro n₀ hreach hleast
    unfold ceilSqrtAux
    split
    · refine ⟨by assumption, fun m hm => ?_⟩
      by_contra hcon
      exact hleast m (by omega) hm
    · have hstep : ∀ m, m < n₀ + 1 → ¬ a ≤ m * m * b := by
        intro m hm
        rcases Nat.lt_succ_iff_lt_or_eq.mp hm with h | h
        · exact hleast m h
        · subst h; assumption
      have hreach2 : a ≤ (n₀ + 1 + fuel) * (n₀ + 1 + fuel) * b := by
        have he : n₀ + 1 + fuel = n₀ + (fuel + 1) := by omega
        rw [he]
        exact hreach
      exact ih (n₀ + 1) hreach2 hstep

/-- The computed value of `ratCeilSqrt` is the least natural number whose
square dominates `q`. -/
theorem ratCeilSqrt_least (q : ℚ) (hq : 0 < q) :
    q ≤ (ratCeilSqrt q : ℚ) ^ 2 ∧ ∀ n : ℕ, q ≤ (n : ℚ) ^ 2 → ratCeilSqrt q ≤ n := by
  have hnum : 0 < q.num := Rat.num_pos.mpr hq
  have hbpos : 0 < q.den := q.pos
  have key : ∀ n : ℕ, q ≤ (n : ℚ) ^ 2 ↔ q.num.toNat ≤ n * n * q.den := by
    intro n
    have hx : ((n : ℚ) ^ 2) = ((n * n : ℕ) : ℚ) := by push_cast; ring
    rw [hx, Rat.le_def]
    simp only [Rat.num_natCast, Rat.den_natCast, Nat.cast_one, mul_one]
    have h3 : ((n * n : ℕ) : ℤ) * (q.den : ℤ) = ((n * n * q.den : ℕ) : ℤ) := by push_cast; ring
    rw [h3]
    omega
  have hne : ¬ q ≤ 0 := not_le.mpr hq
  have hreach : q.num.toNat ≤ (0 + (q.num.toNat + 1)) * (0 + (q.num.toNat + 1)) * q.den := by
    have hz : 0 + (q.num.toNat + 1) = q.num.toNat + 1 := by omega
    rw [hz]
    calc q.num.toNat ≤ (q.num.toNat + 1) * (q.num.toNat + 1) := by nlinarith
    _ ≤ (q.num.toNat + 1) * (q.num.toNat + 1) * q.den :=
        Nat.le_mul_of_pos_right _ hbpos
  have hspec := ceilSqrtAux_spec q.num.toNat q.den (q.num.toNat + 1) 0 hreach
    (fun m hm => absurd hm (Nat.not_lt_zero m))
  constructor
  · rw [key]
    unfold ratCeilSqrt
    rw [if_neg hne]
    exact hspec.1
  · intro n hn
    rw [key] at hn
    unfold ratCeilSqrt
    rw [if_neg hne]
    exact hspec.2 n hn

/-- Embedding of `hasLineOfSightWorld` (ColorShader.js line 638, the
canonical `PixelPathfinding.js` revision): sample
`samples = ceil(distance / tileSize · 4)` segments' endpoints along the
line and require the containing tile of each to be walkable.  The source's
`distance === 0` test becomes `distSq = 0`, and the sample count
`⌈4·√distSq / tileSize⌉ = ⌈√(16·distSq / tileSize²)⌉` is computed exactly by
`ratCeilSqrt`. -/
def hasLineOfSightWorld (g : Grid) (fromW toW : Pt) : Bool :=
  let dx := toW.1 - fromW.1
  let dy := toW.2 - fromW.2
  let distSq := dx ^ 2 + dy ^ 2
  if distSq = 0 then true
  else
    let samples := ratCeilSqrt (16 * distSq / g.tileSize ^ 2)
    (List.range (samples + 1)).all fun i =>
      let t : ℚ := (i : ℚ) / (samples : ℚ)
      let c := g.worldToGrid (fromW.1 + dx * t) (fromW.2 + dy * t)
      g.isWalkable c.1 c.2

/-- Embedding of the scan inside the `optimizePixelPath` loop
(ColorShader.js lines 717-736): extend to the furthest waypoint that is both
within the segment-length cap and in line of sight; any failure stops the
scan.  Structural fuel as in `scanFurthest`. -/
def scanFurthestPixel (g : Grid) (p : List Pt) (base : Pt) (maxSegmentLength : ℚ) :
    ℕ → ℕ → ℕ → ℕ
  | 0, _, furthest => furthest
  | fuel + 1, i, furthest =>
    if i < p.length then
      let tw := p.getD i (0, 0)
      let distSq := (tw.1 - base.1) ^ 2 + (tw.2 - base.2) ^ 2
      if sqrtLeB distSq maxSegmentLength && hasLineOfSightWorld g base tw then
        scanFurthestPixel g p base maxSegmentLength fuel (i + 1) i
      else furthest
    else furthest

/-- Embedding of the main loop of `optimizePixelPath` (ColorShader.js lines
713-740), producing the waypoints pushed after the ones already kept.
Structural fuel as in `smoothLoop`. -/
def optimizeLoop (g : Grid) (p : List Pt) (maxSegmentLength : ℚ) : ℕ → ℕ → List Pt
  | 0, _ => []
  | fuel + 1, ci =>
    if ci < p.length - 1 then
      let f := scanFurthestPixel g p (p.getD ci (0, 0)) maxSegmentLength p.length (ci + 2) (ci + 1)
      p.getD f (0, 0) :: optimizeLoop g p maxSegmentLength fuel f
    else []

/-- Embedding of the angle test of `optimizePixelPath` (ColorShader.js lines
698-705).  The source takes `atan2` headings of the two vectors, wraps the
absolute difference into `[0, π]`, and compares with `π/6`; for vectors `u`,
`z` that wrapped difference is exactly the angle between them, and it
exceeds `π/6` iff `cos` is below `√3/2`, i.e. iff `u·z < 0` or
`4(u·z)² < 3·|u|²·|z|²`.  JavaScript's `atan2(0,0) = 0` makes a zero vector
behave as direction `(1,0)`. -/
def jsAngleDiffGtPi6 (v w : Pt) : Bool :=
  let u := if v = ((0 : ℚ), (0 : ℚ)) then ((1 : ℚ), (0 : ℚ)) else v
  let z := if w = ((0 : ℚ), (0 : ℚ)) then ((1 : ℚ), (0 : ℚ)) else w
  let dot := u.1 * z.1 + u.2 * z.2
  decide (dot < 0) || decide (4 * dot ^ 2 < 3 * (u.1 ^ 2 + u.2 ^ 2) * (z.1 ^ 2 + z.2 ^ 2))

/-- Embedding of `optimizePixelPath` (ColorShader.js line 669): paths of at
most two waypoints are returned unchanged; otherwise, if the start pixel is
more than `0.3 · tileSize` from its tile centre and the directions from
`path[0]` to `path[1]` and from `path[0]` to `path[2]` differ by more than
30°, the first intermediate waypoint is force-kept; the greedy length-capped
line-of-sight reduction then continues from the last kept waypoint. -/
def optimizePixelPath (g : Grid) (path : List Pt) (maxSegmentTiles : ℚ) : List Pt :=
  if path.length ≤ 2 then path
  else
    let maxSegmentLength := maxSegmentTiles * g.tileSize
    let p0 := path.getD 0 (0, 0)
    let keep : Bool :=
      if 2 < path.length then
        let startTile := g.worldToGrid p0.1 p0.2
        let tileCenter := g.gridToWorld startTile.1 startTile.2
        let distSq := (p0.1 - tileCenter.1) ^ 2 + (p0.2 - tileCenter.2) ^ 2
        if ltSqrtB (g.tileSize * (3 / 10)) distSq then
          let p1 := path.getD 1 (0, 0)
          let p2 := path.getD 2 (0, 0)
          jsAngleDiffGtPi6 (p1.1 - p0.1, p1.2 - p0.2) (p2.1 - p0.1, p2.2 - p0.2)
        else false
      else false
    if keep then
      p0 :: path.getD 1 (0, 0) :: optimizeLoop g path maxSegmentLength path.length 1
    else p0 :: optimizeLoop g path maxSegmentLength path.length 0

/-- All-walkable 10×10 field with 50-pixel tiles. -/
def openFieldGrid : Grid := { cols := 10, rows := 10, tileSize := 50, tiles := fun _ _ => 0 }

/-- A smoothed nonempty path is nonempty: short paths are returned verbatim
and longer ones start with the original first waypoint. -/
theorem smoothPath_ne_nil (g : Grid) (p : List Coord) (h : p ≠ []) :
    smoothPath g p ≠ [] := by
  unfold smoothPath
  split
  · exact h
  · exact List.cons_ne_nil _ _

/-- Embedding of `findPixelPath` (ColorShader.js line 588, the canonical
`PixelPathfinding.js` revision): fail if the goal tile is unwalkable; return
the direct two-point path when start and goal share a tile; otherwise run
the tile search with diagonals, smooth it, map tiles to their centres, then
overwrite the last waypoint with the exact goal pixel and — when more than
one waypoint remains — the first with the exact start pixel. -/
def findPixelPath (g : Grid) (startWorld goalWorld : Pt) : Option (List Pt) :=
  let startTile := g.worldToGrid startWorld.1 startWorld.2
  let goalTile := g.worldToGrid goalWorld.1 goalWorld.2
  if g.isWalkable goalTile.1 goalTile.2 = false then none
  else if startTile = goalTile then some [startWorld, goalWorld]
  else
    match findPath g startTile goalTile true with
    | none => none
    | some gridPath =>
      if gridPath.length = 0 then none
      else
        let worldPath := (smoothPath g gridPath).map fun c => g.gridToWorld c.1 c.2
        let worldPath1 :=
          if 0 < worldPath.length then worldPath.dropLast ++ [goalWorld] else worldPath
        let worldPath2 :=
          if 1 < worldPath1.length then startWorld :: worldPath1.tail else worldPath1
        some worldPath2

/-- C7: whenever `findPixelPath` returns a path, its last waypoint is
exactly the requested goal pixel, and when the returned path has more than
one waypoint its first waypoint is exactly the requested start pixel. -/
theorem findPixelPath_endpoints (g : Grid) (sw gw : Pt) (p : List Pt)
    (h : findPixelPath g sw gw = some p) :
    p.getLast? = some gw ∧ (1 < p.length → p.head? = some sw) := by
  unfold findPixelPath at h
  simp only [] at h
  split at h
  · exact absurd h (by simp)
  · split at h
    · have hp : p = [sw, gw] := by injection h with h; exact h.symm
      subst hp
      exact ⟨rfl, fun _ => rfl⟩
    · split at h
      · exact absurd h (by simp)
      · rename_i gridPath heq
        split at h
        · exact absurd h (by simp)
        · rename_i hglen
          have hgne : gridPath ≠ [] := by
            intro hc
            exact hglen (by simp [hc])
          have hsm : smoothPath g gridPath ≠ [] := smoothPath_ne_nil g gridPath hgne
          set worldPath := (smoothPath g gridPath).map fun c => g.gridToWorld c.1 c.2
            with hwp
          have hwne : worldPath ≠ [] := by
            rw [hwp]
            simpa using hsm
          have hwpos : 0 < worldPath.length := List.length_pos.mpr hwne
          rw [if_pos hwpos] at h
          have hlast : (worldPath.dropLast ++ [gw]).getLast? = some gw := by
            simp
          have hlen1 : (worldPath.dropLast ++ [gw]).length = worldPath.length := by
            simp only [List.length_append, List.length_dropLast, List.length_cons,
              List.length_nil]
            omega
          split at h
          · rename_i hgt
            have hp : p = sw :: (worldPath.dropLast ++ [gw]).tail := by
              injection h with h; exact h.symm
            subst hp
            constructor
            · rcases hq : worldPath.dropLast ++ [gw] with _ | ⟨w, t⟩
              · simp at hq
              · rcases ht : t with _ | ⟨b, l⟩
                · subst ht
                  rw [hq] at hgt
                  simp at hgt
                · subst ht
                  simp only [List.tail_cons]
                  rw [hq, List.getLast?_cons_cons] at hlast
                  rw [List.getLast?_cons_cons]
                  exact hlast
            · intro _
              rfl
          · rename_i hle
            have hp : p = worldPath.dropLast ++ [gw] := by injection h with h; exact h.symm
            subst hp
            refine ⟨hlast, fun hgt => absurd hgt hle⟩

/-- Concrete same-tile request on the open field, evaluated. -/
theorem findPixelPath_sameTile_eval :
    findPixelPath openFieldGrid ((10 : ℚ), (10 : ℚ)) ((20 : ℚ), (20 : ℚ)) =
      some [((10 : ℚ), (10 : ℚ)), ((20 : ℚ), (20 : ℚ))] := by
  decide

/-- Witness for C7 at a concrete same-tile request on the open field. -/
theorem findPixelPath_endpoints_witness :
    findPixelPath openFieldGrid (10, 10) (20, 20) = some [((10 : ℚ), (10 : ℚ)), (20, 20)] ∧
      ([((10 : ℚ), (10 : ℚ)), (20, 20)] : List Pt).getLast? = some (20, 20) ∧
      (1 < ([((10 : ℚ), (10 : ℚ)), (20, 20)] : List Pt).length →
        ([((10 : ℚ), (10 : ℚ)), (20, 20)] : List Pt).head? = some (10, 10)) := by
  have h := findPixelPath_endpoints openFieldGrid ((10 : ℚ), (10 : ℚ)) ((20 : ℚ), (20 : ℚ))
    [((10 : ℚ), (10 : ℚ)), ((20 : ℚ), (20 : ℚ))] findPixelPath_sameTile_eval
  exact ⟨findPixelPath_sameTile_eval, h.1, h.2⟩

/-- Rendering of C6's antecedent as worded in the claim: the headings of the
first two path segments, `P0→P1` and `P1→P2`, differ by more than 30° —
note the second vector differs from the one the code tests.  Stated with the
same exact cosine test as the code-side predicate. -/
def claimSegmentHeadingsDifferGt30 (p0 p1 p2 : Pt) : Bool :=
  jsAngleDiffGtPi6 (p1.1 - p0.1, p1.2 - p0.2) (p2.1 - p1.1, p2.2 - p1.2)

/-- Counterexample to C6: on the open field, for the path
`[(0,0), (100,0), (200,100)]` every condition of the claim holds — the path
has more than two waypoints, `(0,0)` is more than `0.3·tileSize` from its
tile centre `(25,25)`, and the headings of segments `P0→P1` and `P1→P2`
differ by 45° — yet the optimizer drops `P1`: the code compares the heading
of `P0→P2` (26.6° off `P0→P1`, under the 30° threshold), so the force-keep
does not fire and the greedy scan skips to `P2`. -/
theorem optimizePixelPath_forcekeep_counterexample :
    2 < ([((0 : ℚ), (0 : ℚ)), (100, 0), (200, 100)] : List Pt).length ∧
      ltSqrtB (openFieldGrid.tileSize * (3 / 10))
        ((0 - (openFieldGrid.gridToWorld ((openFieldGrid.worldToGrid 0 0).1)
            ((openFieldGrid.worldToGrid 0 0).2)).1) ^ 2 +
          (0 - (openFieldGrid.gridToWorld ((openFieldGrid.worldToGrid 0 0).1)
            ((openFieldGrid.worldToGrid 0 0).2)).2) ^ 2) = true ∧
      claimSegmentHeadingsDifferGt30 (0, 0) (100, 0) (200, 100) = true ∧
      (optimizePixelPath openFieldGrid [(0, 0), (100, 0), (200, 100)] 8)[1]? ≠
        some ((100 : ℚ), (0 : ℚ)) := by
  refine ⟨by decide, by decide, by decide, ?_⟩
  decide

/-- C6 (amended): with the angle condition as the code actually tests it —
the directions from `P[0]` to `P[1]` and from `P[0]` to `P[2]` differing by
more than 30° — a start pixel more than `0.3·tileSize` off its tile centre
forces `P[1]` to be kept as the second output waypoint. -/
theorem optimizePixelPath_forcekeep (g : Grid) (path : List Pt) (m : ℚ)
    (hlen : 2 < path.length)
    (hdist : ltSqrtB (g.tileSize * (3 / 10))
      (((path.getD 0 (0, 0)).1 -
          (g.gridToWorld ((g.worldToGrid (path.getD 0 (0, 0)).1 (path.getD 0 (0, 0)).2).1)
            ((g.worldToGrid (path.getD 0 (0, 0)).1 (path.getD 0 (0, 0)).2).2)).1) ^ 2 +
        ((path.getD 0 (0, 0)).2 -
          (g.gridToWorld ((g.worldToGrid (path.getD 0 (0, 0)).1 (path.getD 0 (0, 0)).2).1)
            ((g.worldToGrid (path.getD 0 (0, 0)).1 (path.getD 0 (0, 0)).2).2)).2) ^ 2) = true)
    (hangle : jsAngleDiffGtPi6
      ((path.getD 1 (0, 0)).1 - (path.getD 0 (0, 0)).1,
        (path.getD 1 (0, 0)).2 - (path.getD 0 (0, 0)).2)
      ((path.getD 2 (0, 0)).1 - (path.getD 0 (0, 0)).1,
        (path.getD 2 (0, 0)).2 - (path.getD 0 (0, 0)).2) = true) :
    (optimizePixelPath g path m)[1]? = path[1]? := by
  unfold optimizePixelPath
  rw [if_neg (by omega)]
  simp only [if_pos hlen, hdist, if_true, hangle]
  have h1 : 1 < path.length := by omega
  have h2 : path.getD 1 (0, 0) = path[1] := by
    rw [List.getD_eq_getElem?_getD, List.getElem?_eq_getElem h1]
    rfl
  rw [List.getElem?_eq_getElem h1, h2]
  simp

/-- Witness for the amended C6: a start at `(0,0)` (35 pixels off centre)
with the code-side angle condition satisfied keeps `(100,0)` second. -/
theorem optimizePixelPath_forcekeep_witness :
    (optimizePixelPath openFieldGrid [((0 : ℚ), (0 : ℚ)), (100, 0), (100, 100)] 8)[1]? =
        ([((0 : ℚ), (0 : ℚ)), (100, 0), (100, 100)] : List Pt)[1]? :=
  optimizePixelPath_forcekeep openFieldGrid [(0, 0), (100, 0), (100, 100)] 8
    (by decide) (by decide) (by decide)

/-- Embedding of the motion-relevant mutable state of `Unit` (Unit.js).
JS object identity is modelled by the `id` field (two distinct live units
never share an `id`); `null` references become `none`; the JS `Infinity`
stored in `lastDistanceToWaypoint` becomes `⊤` in `WithTop ℚ`. -/
structure Unit where
  id : ℕ
  x : ℚ
  y : ℚ
  path : List Pt
  currentWaypointIndex : ℕ
  attackTarget : Option ℕ
  targetX : ℚ
  targetY : ℚ
  stuckTimer : ℚ
  progressTimer : ℚ
  lastDistanceToWaypoint : WithTop ℚ
  standingStillTimer : ℚ
  lastMovementCheck : Pt

/-- Embedding of `Unit.setPath` (Unit.js line 755).  A `null` argument is
`none`; an empty or `null` path clears the stored path and waypoint index and
returns early, touching nothing else.  A non-empty path additionally clears
the attack target, resets the stuck/standstill bookkeeping and aims at the
first waypoint. -/
def Unit.setPath (u : Unit) (path : Option (List Pt)) : Unit :=
  match path with
  | none => { u with path := [], currentWaypointIndex := 0 }
  | some [] => { u with path := [], currentWaypointIndex := 0 }
  | some (w :: ws) =>
    { u with
      path := w :: ws
      currentWaypointIndex := 0
      attackTarget := none
      stuckTimer := 0
      progressTimer := 0
      lastDistanceToWaypoint := ⊤
      standingStillTimer := 0
      lastMovementCheck := (u.x, u.y)
      targetX := w.1
      targetY := w.2 }

/-- Embedding of `Unit.setAttackTarget` (Unit.js line 786): the guard
`target && target !== this` becomes: the argument is `some t` with `t`
different from the unit's own id.  Note the body assigns only
`this.attackTarget`. -/
def Unit.setAttackTarget (u : Unit) (target : Option ℕ) : Unit :=
  match target with
  | none => u
  | some t => if t = u.id then u else { u with attackTarget := some t }

/-- Concrete unit with an active path, used to refute C8. -/
def unitWithActivePath : Unit :=
  { id := 0, x := 5, y := 5, path := [(1, 2), (3, 4)], currentWaypointIndex := 1,
    attackTarget := none, targetX := 7, targetY := 8, stuckTimer := 0,
    progressTimer := 0, lastDistanceToWaypoint := (5 : ℚ),
    standingStillTimer := 0, lastMovementCheck := (5, 5) }

/-- Counterexample to C8: `setAttackTarget` with a valid target (non-null,
not the unit itself) does not discard in-flight path state — the stored path
stays non-empty and the waypoint index keeps its value. -/
theorem setAttackTarget_keeps_path_counterexample :
    (unitWithActivePath.setAttackTarget (some 1)).path = [((1 : ℚ), (2 : ℚ)), (3, 4)] ∧
      (unitWithActivePath.setAttackTarget (some 1)).path ≠ [] ∧
      (unitWithActivePath.setAttackTarget (some 1)).currentWaypointIndex = 1 := by
  decide

/-- C8 (amended): `setAttackTarget` with a valid target only records the
attack target; every other field — in particular the stored path and the
current waypoint index — is left unchanged. -/
theorem setAttackTarget_frame (u : Unit) (t : ℕ) (h : t ≠ u.id) :
    u.setAttackTarget (some t) = { u with attackTarget := some t } := by
  unfold Unit.setAttackTarget
  simp [h]

/-- Witness for the amended C8 at a concrete unit and target. -/
theorem setAttackTarget_frame_witness :
    (1 : ℕ) ≠ unitWithActivePath.id ∧
      unitWithActivePath.setAttackTarget (some 1) =
        { unitWithActivePath with attackTarget := some 1 } :=
  ⟨by decide, setAttackTarget_frame unitWithActivePath 1 (by decide)⟩

/-- C10: assigning a `null` or empty path clears the stored path and resets
the waypoint index, and leaves every other field — movement target, attack
target, stuck/standstill timers, bookkeeping — untouched. -/
theorem setPath_empty_frame (u : Unit) (p : Option (List Pt))
    (h : p = none ∨ p = some []) :
    (u.setPath p).path = [] ∧ (u.setPath p).currentWaypointIndex = 0 ∧
      (u.setPath p).targetX = u.targetX ∧ (u.setPath p).targetY = u.targetY ∧
      (u.setPath p).attackTarget = u.attackTarget ∧
      (u.setPath p).stuckTimer = u.stuckTimer ∧
      (u.setPath p).progressTimer = u.progressTimer ∧
      (u.setPath p).lastDistanceToWaypoint = u.lastDistanceToWaypoint ∧
      (u.setPath p).standingStillTimer = u.standingStillTimer ∧
      (u.setPath p).lastMovementCheck = u.lastMovementCheck := by
  rcases h with h | h <;> subst h <;> simp [Unit.setPath]

/-- Witness for C10 at a concrete unit and the empty path. -/
theorem setPath_empty_frame_witness :
    (some ([] : List Pt) = none ∨ some ([] : List Pt) = some []) ∧
      (unitWithActivePath.setPath (some [])).path = [] ∧
      (unitWithActivePath.setPath (some [])).currentWaypointIndex = 0 ∧
      (unitWithActivePath.setPath (some [])).targetX = unitWithActivePath.targetX ∧
      (unitWithActivePath.setPath (some [])).targetY = unitWithActivePath.targetY ∧
      (unitWithActivePath.setPath (some [])).attackTarget = unitWithActivePath.attackTarget ∧
      (unitWithActivePath.setPath (some [])).stuckTimer = unitWithActivePath.stuckTimer ∧
      (unitWithActivePath.setPath (some [])).progressTimer = unitWithActivePath.progressTimer ∧
      (unitWithActivePath.setPath (some [])).lastDistanceToWaypoint =
        unitWithActivePath.lastDistanceToWaypoint ∧
      (unitWithActivePath.setPath (some [])).standingStillTimer =
        unitWithActivePath.standingStillTimer ∧
      (unitWithActivePath.setPath (some [])).lastMovementCheck =
        unitWithActivePath.lastMovementCheck := by
  refine ⟨Or.inr rfl, ?_⟩
  have h := setPath_empty_frame unitWithActivePath (some []) (Or.inr rfl)
  exact ⟨h.1, h.2.1, h.2.2.1, h.2.2.2.1, h.2.2.2.2.1, h.2.2.2.2.2.1, h.2.2.2.2.2.2.1,
    h.2.2.2.2.2.2.2.1, h.2.2.2.2.2.2.2.2.1, h.2.2.2.2.2.2.2.2.2⟩

end StarboundWeb
